import Mathlib

/-!
Shallow embedding of the noline synchronous editor (src/noline/src/sync.rs).

The transport (`embedded_hal::serial` plus the `nb` crate) is modelled as a
`Device`: three predetermined streams of poll responses (one per primitive
operation: read a byte, write a byte, flush) together with instrumentation
recording the bytes successfully written, the number of completed flushes
and the number of cooperative yields performed.  The `ablock!` macro becomes
the function `ablock` consuming one response stream; `embedded::IO::read`,
`IO::write` and `IO::flush` become `ioRead`, `ioWrite` and `ioFlush`.

The modules `core` (`Line`, `Initializer`), `output` (`Output`,
`OutputItem`), `history` and `line_buffer` are not part of the sources under
verification; `sync.rs` only drives them through a small interface.  They
are therefore abstracted: `LineM` packages `Line::reset`/`advance`/the
buffer contents, `InitM` packages `Initializer::init`/`advance`, and
`OutputItem` is modelled from the spec as a semantic tag with optional raw
bytes.  All editor-level theorems are universally quantified over these
machines, so they hold for every implementation of the missing modules.
-/

namespace Noline

/-- Result of polling a non-blocking (`nb`) transport operation:
`Ok(v)`, `Err(nb::Error::WouldBlock)` or `Err(nb::Error::Other(e))`. -/
inductive NbResult (α ε : Type) where
  | ok (v : α)
  | wouldBlock
  | err (e : ε)
deriving DecidableEq, Repr

/-- Outcome of the `ablock!` retry loop: the final result, the number of
cooperative yields performed (one per `WouldBlock`), and the unconsumed
remainder of the response stream. -/
structure ABlockOut (α ε : Type) where
  result : Except ε α
  yields : Nat
  rest : List (NbResult α ε)
deriving Repr

/-- The `ablock!` macro of `sync.rs`: retry the operation, yielding once per
`WouldBlock`, until it returns `Ok` (loop ends with the value) or a hard
error (loop ends immediately with that error).  `none` means the response
stream was exhausted while still blocked (the loop would spin forever). -/
def ablock {α ε : Type} : List (NbResult α ε) → Option (ABlockOut α ε)
  | [] => none
  | .ok v :: rest => some ⟨.ok v, 0, rest⟩
  | .err e :: rest => some ⟨.error e, 0, rest⟩
  | .wouldBlock :: rest =>
      (ablock rest).map fun o => ⟨o.result, o.yields + 1, o.rest⟩

/-- The transport: predetermined response streams for the three primitive
operations, plus instrumentation (`written` records bytes successfully
written, in order; `flushes` counts completed flushes; `yields` counts
cooperative yields). -/
structure Device (re we : Type) where
  readResps : List (NbResult Nat re)
  writeResps : List (NbResult Unit we)
  flushResps : List (NbResult Unit we)
  written : List Nat
  flushes : Nat
  yields : Nat
deriving DecidableEq, Repr

/-- `embedded::IO::read`: `ablock!(co, self.rw.read())`. -/
def ioRead {re we : Type} (d : Device re we) :
    Option (Except re Nat × Device re we) :=
  match ablock d.readResps with
  | none => none
  | some o =>
      some (o.result, { d with readResps := o.rest, yields := d.yields + o.yields })

/-- One iteration of the loop in `embedded::IO::write`:
`ablock!(co, self.rw.write(b))`.  A successful poll delivers the byte to
the transport (recorded in `written`). -/
def ioWriteByte {re we : Type} (b : Nat) (d : Device re we) :
    Option (Except we Unit × Device re we) :=
  match ablock d.writeResps with
  | none => none
  | some o =>
      let d' : Device re we :=
        { d with writeResps := o.rest, yields := d.yields + o.yields }
      match o.result with
      | .ok _ => some (.ok (), { d' with written := d'.written ++ [b] })
      | .error e => some (.error e, d')

/-- `embedded::IO::write`: write the buffer one byte at a time, each byte
through the `ablock!` loop; `?` propagates the first hard error. -/
def ioWrite {re we : Type} (buf : List Nat) (d : Device re we) :
    Option (Except we Unit × Device re we) :=
  match buf with
  | [] => some (.ok (), d)
  | b :: rest =>
      match ioWriteByte b d with
      | none => none
      | some (.ok _, d') => ioWrite rest d'
      | some (.error e, d') => some (.error e, d')

/-- `embedded::IO::flush`: `ablock!(co, self.rw.flush())`. -/
def ioFlush {re we : Type} (d : Device re we) :
    Option (Except we Unit × Device re we) :=
  match ablock d.flushResps with
  | none => none
  | some o =>
      let d' : Device re we :=
        { d with flushResps := o.rest, yields := d.yields + o.yields }
      match o.result with
      | .ok _ => some (.ok (), { d' with flushes := d'.flushes + 1 })
      | .error e => some (.error e, d')

/-- The semantic tags of output items.  Modelled from the spec: the
`OutputItem` variant set is `{Print, MoveCursor, ClearLine, EndOfString,
Abort, NoOp}`. -/
inductive OutputTag where
  | print
  | moveCursor
  | clearLine
  | endOfString
  | abort
  | noOp
deriving DecidableEq, Repr

/-- Modelled from the spec: an `OutputItem` is a "variant carrying optional
raw bytes plus a semantic tag"; `get_bytes` returns the optional bytes.
The `output` module is not among the sources under verification, so the
item is kept abstract: a tag plus `get_bytes`. -/
structure OutputItem where
  tag : OutputTag
  bytes : Option (List Nat)
deriving DecidableEq, Repr

/-- The error enumeration of `crate::error::Error` as used by `sync.rs`:
`WriteError`, `ReadError`, `ParserError`, `Aborted` (the spec's taxonomy). -/
inductive Error (re we : Type) where
  | writeError (e : we)
  | readError (e : re)
  | parserError
  | aborted
deriving DecidableEq, Repr

/-- `Editor::handle_output`: for each item of the output sequence, write its
bytes (when it carries any), then flush; `EndOfString` returns
`Ok(Some(()))`, `Abort` returns `Err(Error::Aborted)`, any other item
continues with the rest.  An exhausted sequence returns `Ok(None)`. -/
def handleOutput {re we : Type} (items : List OutputItem) (d : Device re we) :
    Option (Except (Error re we) (Option Unit) × Device re we) :=
  match items with
  | [] => some (.ok none, d)
  | item :: rest =>
      let afterWrite : Option (Except (Error re we) Unit × Device re we) :=
        match item.bytes with
        | none => some (.ok (), d)
        | some bs =>
            match ioWrite bs d with
            | none => none
            | some (.ok _, d1) => some (.ok (), d1)
            | some (.error e, d1) => some (.error (.writeError e), d1)
      match afterWrite with
      | none => none
      | some (.error er, d1) => some (.error er, d1)
      | some (.ok _, d1) =>
          match ioFlush d1 with
          | none => none
          | some (.error e, d2) => some (.error (.writeError e), d2)
          | some (.ok _, d2) =>
              match item.tag with
              | .endOfString => some (.ok (some ()), d2)
              | .abort => some (.error .aborted, d2)
              | _ => handleOutput rest d2

/-- Abstraction of `core::Line` over its state `σ` (the borrowed line
buffer, terminal and history).  Modelled from the spec at the interface
`sync.rs` uses: `reset` clears the line and yields the redraw output,
`advance` consumes one input byte and yields the resulting output sequence,
`content` is `buffer.as_str()`. -/
structure LineM (σ : Type) where
  reset : σ → σ × List OutputItem
  advance : σ → Nat → σ × List OutputItem
  content : σ → List Nat

/-- The read loop of `Editor::readline`: read one byte, feed it to
`line.advance`, process the output; `Ok(Some(_))` (end of string) breaks
the loop and the buffer contents are returned.  `fuel` bounds the number
of iterations; `none` means the fuel or a response stream ran out. -/
def readlineLoop {σ re we : Type} (lf : LineM σ) (fuel : Nat) (st : σ)
    (d : Device re we) :
    Option (Except (Error re we) (List Nat) × Device re we) :=
  match fuel with
  | 0 => none
  | fuel' + 1 =>
      match ioRead d with
      | none => none
      | some (.error e, d1) => some (.error (.readError e), d1)
      | some (.ok b, d1) =>
          let p := lf.advance st b
          match handleOutput p.2 d1 with
          | none => none
          | some (.error er, d2) => some (.error er, d2)
          | some (.ok (some _), d2) => some (.ok (lf.content p.1), d2)
          | some (.ok none, d2) => readlineLoop lf fuel' p.1 d2

/-- `Editor::readline`: process the output of `line.reset()` (its
non-error result is discarded), then run the read loop. -/
def readline {σ re we : Type} (lf : LineM σ) (fuel : Nat) (st : σ)
    (d : Device re we) :
    Option (Except (Error re we) (List Nat) × Device re we) :=
  let p := lf.reset st
  match handleOutput p.2 d with
  | none => none
  | some (.error er, d1) => some (.error er, d1)
  | some (.ok _, d1) => readlineLoop lf fuel p.1 d1

/-- The negotiated terminal geometry.  Modelled from the spec: "width,
height, discovered once via negotiation". -/
structure Terminal where
  width : Nat
  height : Nat
deriving DecidableEq, Repr

/-- `core::InitializerResult`: `Continue | Item(Terminal) | InvalidInput`
(spec §4.1). -/
inductive InitResult where
  | cont
  | item (t : Terminal)
  | invalidInput
deriving DecidableEq, Repr

/-- Abstraction of `core::Initializer` over its state `ι`.  Modelled from
the spec at the interface `sync.rs` uses: `initBytes` is the fixed probe
`Initializer::init()`, `advance` consumes one reply byte. -/
structure InitM (ι : Type) where
  initBytes : List Nat
  advance : ι → Nat → ι × InitResult

/-- The editor state built by `Editor::new`.  `LineBuffer::new()` and
`H::default()` are not among the sources under verification; modelled from
the spec: a fresh empty line buffer and the default (empty) history. -/
structure EditorState where
  buffer : List Nat
  terminal : Terminal
  history : List (List Nat)
deriving DecidableEq, Repr

/-- The negotiation loop of `Editor::new`: read a byte, advance the
negotiator; `Continue` keeps reading, `Item(terminal)` breaks with the
terminal, `InvalidInput` returns `Err(Error::ParserError)`. -/
def newLoop {ι re we : Type} (im : InitM ι) (fuel : Nat) (i : ι)
    (d : Device re we) :
    Option (Except (Error re we) Terminal × Device re we) :=
  match fuel with
  | 0 => none
  | fuel' + 1 =>
      match ioRead d with
      | none => none
      | some (.error e, d1) => some (.error (.readError e), d1)
      | some (.ok b, d1) =>
          let p := im.advance i b
          match p.2 with
          | .cont => newLoop im fuel' p.1 d1
          | .item t => some (.ok t, d1)
          | .invalidInput => some (.error .parserError, d1)

/-- `Editor::new`: write the probe `Initializer::init()`, flush, run the
negotiation loop; on success the editor holds a fresh buffer, the
negotiated terminal and the default history. -/
def editorNew {ι re we : Type} (im : InitM ι) (fuel : Nat) (i : ι)
    (d : Device re we) :
    Option (Except (Error re we) EditorState × Device re we) :=
  match ioWrite im.initBytes d with
  | none => none
  | some (.error e, d1) => some (.error (.writeError e), d1)
  | some (.ok _, d1) =>
      match ioFlush d1 with
      | none => none
      | some (.error e, d2) => some (.error (.writeError e), d2)
      | some (.ok _, d2) =>
          match newLoop im fuel i d2 with
          | none => none
          | some (.error er, d3) => some (.error er, d3)
          | some (.ok t, d3) => some (.ok ⟨[], t, []⟩, d3)

/-- Modelled from the spec: a history entry view (`history::CircularSlice`);
an entry that straddles the ring's physical wrap boundary is exposed as two
contiguous sub-ranges in logical order. -/
structure CircularSlice where
  first : List Nat
  second : List Nat
deriving DecidableEq, Repr

/-- Modelled from the spec: `history::get_history_entries` reads the store
through a shared reference and produces one lazy view per entry, oldest
first, without modifying the store (the history is kept abstract as the
logical list of entries, so each view is a single contiguous range). -/
def getHistoryEntries (h : List (List Nat)) : List CircularSlice :=
  h.map fun e => ⟨e, []⟩

/-- `Editor::get_history`: takes the editor by shared reference (`&self`)
and returns the iterator of `get_history_entries`; the state component of
the result records that the editor is returned unchanged. -/
def getHistory (ed : EditorState) : List CircularSlice × EditorState :=
  (getHistoryEntries ed.history, ed)

/-! Pure observation functions used to state the theorems. -/

/-- The values delivered by the successful polls of a response stream, in
order. -/
def okValues {α ε : Type} : List (NbResult α ε) → List α
  | [] => []
  | .ok v :: rest => v :: okValues rest
  | .wouldBlock :: rest => okValues rest
  | .err _ :: rest => okValues rest

/-- `true` when the stream fragment contains no hard error. -/
def noErr {α ε : Type} : List (NbResult α ε) → Bool
  | [] => true
  | .err _ :: _ => false
  | .ok _ :: rest => noErr rest
  | .wouldBlock :: rest => noErr rest

/-- Number of `WouldBlock` responses in a stream fragment (each one costs
exactly one cooperative yield). -/
def countWb {α ε : Type} : List (NbResult α ε) → Nat
  | [] => 0
  | .wouldBlock :: rest => countWb rest + 1
  | .ok _ :: rest => countWb rest
  | .err _ :: rest => countWb rest

/-- The first terminating signal of an output sequence, if any:
`some true` for `EndOfString`, `some false` for `Abort`, scanning left to
right; `none` when the sequence carries no terminating item. -/
def firstSignal : List OutputItem → Option Bool
  | [] => none
  | it :: rest =>
      match it.tag with
      | .endOfString => some true
      | .abort => some false
      | _ => firstSignal rest

/-- The bytes an item contributes to the transport (none when
`get_bytes` is `None`). -/
def itemBytes (it : OutputItem) : List Nat := it.bytes.getD []

/-- The bytes `handle_output` writes for an output sequence: every item's
bytes up to and including the first terminating item. -/
def bytesUpToSignal : List OutputItem → List Nat
  | [] => []
  | it :: rest =>
      match it.tag with
      | .endOfString => itemBytes it
      | .abort => itemBytes it
      | _ => itemBytes it ++ bytesUpToSignal rest

/-- The number of items `handle_output` processes (and flushes) for an
output sequence: every item up to and including the first terminating
item. -/
def itemsUpToSignal : List OutputItem → Nat
  | [] => 0
  | it :: rest =>
      match it.tag with
      | .endOfString => 1
      | .abort => 1
      | _ => itemsUpToSignal rest + 1

/-- Fold `line.advance` over a byte sequence, keeping the final line
state. -/
def foldAdvance {σ : Type} (lf : LineM σ) (st : σ) (bs : List Nat) : σ :=
  bs.foldl (fun s b => (lf.advance s b).1) st

/-- The bytes written while processing the outputs of the successive
`line.advance` calls on a byte sequence. -/
def runWritten {σ : Type} (lf : LineM σ) : σ → List Nat → List Nat
  | _, [] => []
  | st, b :: rest =>
      let p := lf.advance st b
      bytesUpToSignal p.2 ++ runWritten lf p.1 rest

/-- `true` when the outputs of the successive `line.advance` calls carry no
terminating signal until the very last byte, whose output signals
`EndOfString` first. -/
def endsWithEOS {σ : Type} (lf : LineM σ) : σ → List Nat → Bool
  | _, [] => false
  | st, [b] => firstSignal (lf.advance st b).2 == some true
  | st, b :: rest =>
      (firstSignal (lf.advance st b).2 == none) &&
        endsWithEOS lf (lf.advance st b).1 rest

/-- `true` when folding the negotiator over the byte sequence answers
`Continue` on every byte except the last, which answers `InvalidInput`. -/
def invalidFirst {ι : Type} (im : InitM ι) : ι → List Nat → Bool
  | _, [] => false
  | i, b :: rest =>
      match im.advance i b with
      | (i', .cont) => invalidFirst im i' rest
      | (_, .item _) => false
      | (_, .invalidInput) => rest.isEmpty

/-- `true` when folding the negotiator over the byte sequence answers
`Continue` on every byte except the last, which yields `Item t`. -/
def itemFirst {ι : Type} (im : InitM ι) : ι → List Nat → Terminal → Bool
  | _, [], _ => false
  | i, b :: rest, t =>
      match im.advance i b with
      | (i', .cont) => itemFirst im i' rest t
      | (_, .item t') => rest.isEmpty && t' == t
      | (_, .invalidInput) => false

/-- Proof-layer view of the write step of one `handle_output` iteration:
`if let Some(bytes) = item.get_bytes() { io.write(co, bytes)? }`. -/
def writeItem {re we : Type} (item : OutputItem) (d : Device re we) :
    Option (Except we Unit × Device re we) :=
  match item.bytes with
  | none => some (.ok (), d)
  | some bs => ioWrite bs d

/-! Concrete instances used to evaluate the theorems on closed runs. -/

/-- A concrete line machine over a plain byte-list buffer: printable bytes
are appended and echoed, carriage return emits a newline and ends the
line; `reset` clears the buffer and redraws. -/
def demoLine : LineM (List Nat) where
  reset _ := ([], [⟨.clearLine, some [27, 91, 50, 75]⟩])
  advance st b :=
    if b == 13 then (st, [⟨.print, some [10]⟩, ⟨.endOfString, none⟩])
    else (st ++ [b], [⟨.print, some [b]⟩])
  content st := st

/-- A concrete negotiator: the byte 82 completes negotiation with an
80×24 terminal, the byte 88 is rejected as invalid input, anything else
continues. -/
def demoInit : InitM Nat where
  initBytes := [27, 91, 54, 110]
  advance i b :=
    if b == 82 then (i + 1, .item ⟨80, 24⟩)
    else if b == 88 then (i + 1, .invalidInput)
    else (i + 1, .cont)

/-- Device delivering the bytes of "h\r" with ample write and flush
capacity. -/
def devC1 : Device Unit Unit :=
  ⟨[.ok 104, .ok 13], List.replicate 6 (.ok ()), List.replicate 4 (.ok ()), [], 0, 0⟩

/-- The device state after the `devC1` readline run. -/
def devC1out : Device Unit Unit :=
  ⟨[], [], [], [27, 91, 50, 75, 104, 10], 4, 0⟩

/-- Device whose negotiation reply is a digit followed by the invalid
byte 88. -/
def devC2 : Device Unit Unit :=
  ⟨[.ok 49, .ok 88], List.replicate 4 (.ok ()), [.ok ()], [], 0, 0⟩

/-- `devC2` after the probe bytes have been written. -/
def d1C2 : Device Unit Unit :=
  ⟨[.ok 49, .ok 88], [], [.ok ()], [27, 91, 54, 110], 0, 0⟩

/-- `d1C2` after the probe flush. -/
def d2C2 : Device Unit Unit :=
  ⟨[.ok 49, .ok 88], [], [], [27, 91, 54, 110], 1, 0⟩

/-- Device whose read stream blocks twice and then delivers the byte 7. -/
def wbReadDev : Device Unit Unit :=
  ⟨[.wouldBlock, .wouldBlock, .ok 7], [], [], [], 0, 0⟩

/-- Device whose flush stream blocks twice and then fails hard. -/
def wbFlushDev : Device Unit Unit :=
  ⟨[], [], [.wouldBlock, .wouldBlock, .err ()], [], 0, 0⟩

/-- Device accepting two writes with one would-block in between. -/
def devC4 : Device Unit Unit := ⟨[], [.ok (), .wouldBlock, .ok ()], [], [], 0, 0⟩

/-- The device state after writing two bytes through `devC4`. -/
def devC4out : Device Unit Unit := ⟨[], [], [], [5, 6], 0, 1⟩

/-- Output items before an abort: one printable byte. -/
def preC5 : List OutputItem := [⟨.print, some [120]⟩]

/-- A byteless abort item. -/
def sigAbort : OutputItem := ⟨.abort, none⟩

/-- Output items after the abort, never processed. -/
def postC5 : List OutputItem := [⟨.print, some [121]⟩]

/-- Device with one write and two flushes available. -/
def devC5 : Device Unit Unit := ⟨[], [.ok ()], [.ok (), .ok ()], [], 0, 0⟩

/-- The device state after the aborted `devC5` run. -/
def devC5out : Device Unit Unit := ⟨[], [], [], [120], 2, 0⟩

/-- Device whose negotiation reply is the completing byte 82. -/
def devC6 : Device Unit Unit :=
  ⟨[.ok 82], List.replicate 4 (.ok ()), [.ok ()], [], 0, 0⟩

/-- The device state after the successful `devC6` negotiation. -/
def devC6out : Device Unit Unit := ⟨[], [], [], [27, 91, 54, 110], 1, 0⟩

/-- The editor produced by the `devC6` negotiation. -/
def edC6 : EditorState := ⟨[], ⟨80, 24⟩, []⟩

/-- An output item with no bytes. -/
def itemNoOp : OutputItem := ⟨.noOp, none⟩

/-- An output item printing the byte 65. -/
def itemPrintA : OutputItem := ⟨.print, some [65]⟩

/-- Device whose single flush fails hard. -/
def devC7 : Device Unit Unit := ⟨[], [], [.err ()], [], 0, 0⟩

/-- The device state after the failing flush of `devC7`. -/
def devC7out : Device Unit Unit := ⟨[], [], [], [], 0, 0⟩

/-- Device with one write and two flushes available. -/
def devC7a : Device Unit Unit := ⟨[], [.ok ()], [.ok (), .ok ()], [], 0, 0⟩

/-- The device state after processing two items through `devC7a`. -/
def devC7a2 : Device Unit Unit := ⟨[], [], [], [65], 2, 0⟩

/-- Output items before an end-of-string: one printable byte. -/
def preC8 : List OutputItem := [⟨.print, some [104]⟩]

/-- An end-of-string item carrying the newline byte. -/
def sigEos : OutputItem := ⟨.endOfString, some [10]⟩

/-- Output items after the end-of-string, never processed. -/
def postC8 : List OutputItem := [⟨.print, some [122]⟩]

/-- Device with two writes and two flushes available. -/
def devC8 : Device Unit Unit :=
  ⟨[], List.replicate 2 (.ok ()), List.replicate 2 (.ok ()), [], 0, 0⟩

/-- The device state after the completed `devC8` run. -/
def devC8out : Device Unit Unit := ⟨[], [], [], [104, 10], 2, 0⟩

/-- Device whose write stream accepts one byte and then fails hard. -/
def devC10 : Device Unit Unit := ⟨[], [.ok (), .err ()], [], [], 0, 0⟩

/-- The device state after the failed multi-byte write through `devC10`. -/
def devC10out : Device Unit Unit := ⟨[], [], [], [5], 0, 0⟩

/-! Lemmas about the retry loop and the primitive operations. -/

theorem okValues_append {α ε : Type} (l1 l2 : List (NbResult α ε)) :
    okValues (l1 ++ l2) = okValues l1 ++ okValues l2 := by
  induction l1 with
  | nil => simp [okValues]
  | cons r rest ih => cases r <;> simp [okValues, ih]

theorem noErr_append {α ε : Type} (l1 l2 : List (NbResult α ε)) :
    noErr (l1 ++ l2) = (noErr l1 && noErr l2) := by
  induction l1 with
  | nil => simp [noErr]
  | cons r rest ih => cases r <;> simp [noErr, ih]

theorem countWb_append {α ε : Type} (l1 l2 : List (NbResult α ε)) :
    countWb (l1 ++ l2) = countWb l1 + countWb l2 := by
  induction l1 with
  | nil => simp [countWb]
  | cons r rest ih => cases r <;> (simp [countWb, ih]; try omega)

theorem okValues_replicate_wb {α ε : Type} (k : Nat) :
    okValues (List.replicate k (NbResult.wouldBlock : NbResult α ε)) = [] := by
  induction k with
  | zero => simp [okValues]
  | succ k ih => simp [List.replicate_succ, okValues, ih]

theorem noErr_replicate_wb {α ε : Type} (k : Nat) :
    noErr (List.replicate k (NbResult.wouldBlock : NbResult α ε)) = true := by
  induction k with
  | zero => simp [noErr]
  | succ k ih => simp [List.replicate_succ, noErr, ih]

theorem countWb_replicate_wb {α ε : Type} (k : Nat) :
    countWb (List.replicate k (NbResult.wouldBlock : NbResult α ε)) = k := by
  induction k with
  | zero => simp [countWb]
  | succ k ih => simp [List.replicate_succ, countWb, ih]

theorem ablock_replicate_ok {α ε : Type} (k : Nat) (v : α)
    (rest : List (NbResult α ε)) :
    ablock (List.replicate k NbResult.wouldBlock ++ NbResult.ok v :: rest) =
      some ⟨.ok v, k, rest⟩ := by
  induction k with
  | zero => simp [ablock]
  | succ k ih => simp [List.replicate_succ, ablock, ih]

theorem ablock_replicate_err {α ε : Type} (k : Nat) (e : ε)
    (rest : List (NbResult α ε)) :
    ablock (List.replicate k NbResult.wouldBlock ++ NbResult.err e :: rest) =
      some ⟨.error e, k, rest⟩ := by
  induction k with
  | zero => simp [ablock]
  | succ k ih => simp [List.replicate_succ, ablock, ih]

theorem ablock_eq_some {α ε : Type} :
    ∀ {rs : List (NbResult α ε)} {o : ABlockOut α ε}, ablock rs = some o →
      (∃ v, o.result = .ok v ∧
        rs = List.replicate o.yields NbResult.wouldBlock ++ NbResult.ok v :: o.rest) ∨
      (∃ e, o.result = .error e ∧
        rs = List.replicate o.yields NbResult.wouldBlock ++ NbResult.err e :: o.rest) := by
  intro rs
  induction rs with
  | nil => intro o h; simp [ablock] at h
  | cons r rest ih =>
      intro o h
      cases r with
      | ok v =>
          simp [ablock] at h
          subst h
          exact .inl ⟨v, rfl, by simp⟩
      | err e =>
          simp [ablock] at h
          subst h
          exact .inr ⟨e, rfl, by simp⟩
      | wouldBlock =>
          simp [ablock] at h
          cases hr : ablock rest with
          | none => rw [hr] at h; simp at h
          | some o' =>
              rw [hr] at h
              simp at h
              subst h
              rcases ih hr with ⟨v, hres, hrs⟩ | ⟨e, hres, hrs⟩
              · exact .inl ⟨v, hres, by simp [List.replicate_succ, hrs]⟩
              · exact .inr ⟨e, hres, by simp [List.replicate_succ, hrs]⟩

theorem ioRead_eq_some {re we : Type} {d : Device re we}
    {r : Except re Nat} {d' : Device re we} (h : ioRead d = some (r, d')) :
    d'.writeResps = d.writeResps ∧ d'.flushResps = d.flushResps ∧
      d'.written = d.written ∧ d'.flushes = d.flushes ∧
      ((∃ b k, r = .ok b ∧
          d.readResps =
            List.replicate k NbResult.wouldBlock ++ NbResult.ok b :: d'.readResps ∧
          d'.yields = d.yields + k) ∨
       (∃ e k, r = .error e ∧
          d.readResps =
            List.replicate k NbResult.wouldBlock ++ NbResult.err e :: d'.readResps ∧
          d'.yields = d.yields + k)) := by
  unfold ioRead at h
  cases hr : ablock d.readResps with
  | none => rw [hr] at h; simp at h
  | some o =>
      rw [hr] at h
      simp at h
      obtain ⟨hres, hd⟩ := h
      subst hres
      subst hd
      refine ⟨rfl, rfl, rfl, rfl, ?_⟩
      rcases ablock_eq_some hr with ⟨v, hov, hrs⟩ | ⟨e, hoe, hrs⟩
      · exact .inl ⟨v, o.yields, by rw [hov], hrs, rfl⟩
      · exact .inr ⟨e, o.yields, by rw [hoe], hrs, rfl⟩

theorem ioWriteByte_eq_some {re we : Type} {b : Nat} {d : Device re we}
    {r : Except we Unit} {d' : Device re we}
    (h : ioWriteByte b d = some (r, d')) :
    d'.readResps = d.readResps ∧ d'.flushResps = d.flushResps ∧
      d'.flushes = d.flushes ∧
      ((∃ k, r = .ok () ∧ d'.written = d.written ++ [b] ∧
          d.writeResps =
            List.replicate k NbResult.wouldBlock ++ NbResult.ok () :: d'.writeResps ∧
          d'.yields = d.yields + k) ∨
       (∃ e k, r = .error e ∧ d'.written = d.written ∧
          d.writeResps =
            List.replicate k NbResult.wouldBlock ++ NbResult.err e :: d'.writeResps ∧
          d'.yields = d.yields + k)) := by
  unfold ioWriteByte at h
  cases hr : ablock d.writeResps with
  | none => rw [hr] at h; simp at h
  | some o =>
      rw [hr] at h
      dsimp only at h
      rcases ablock_eq_some hr with ⟨v, hov, hrs⟩ | ⟨e, hoe, hrs⟩
      · cases v
        rw [hov] at h
        simp at h
        obtain ⟨hres, hd⟩ := h
        subst hres
        subst hd
        exact ⟨rfl, rfl, rfl, .inl ⟨o.yields, rfl, rfl, hrs, rfl⟩⟩
      · rw [hoe] at h
        simp at h
        obtain ⟨hres, hd⟩ := h
        subst hres
        subst hd
        exact ⟨rfl, rfl, rfl, .inr ⟨e, o.yields, rfl, rfl, hrs, rfl⟩⟩

theorem ioFlush_eq_some {re we : Type} {d : Device re we}
    {r : Except we Unit} {d' : Device re we} (h : ioFlush d = some (r, d')) :
    d'.readResps = d.readResps ∧ d'.writeResps = d.writeResps ∧
      d'.written = d.written ∧
      ((∃ k, r = .ok () ∧ d'.flushes = d.flushes + 1 ∧
          d.flushResps =
            List.replicate k NbResult.wouldBlock ++ NbResult.ok () :: d'.flushResps ∧
          d'.yields = d.yields + k) ∨
       (∃ e k, r = .error e ∧ d'.flushes = d.flushes ∧
          d.flushResps =
            List.replicate k NbResult.wouldBlock ++ NbResult.err e :: d'.flushResps ∧
          d'.yields = d.yields + k)) := by
  unfold ioFlush at h
  cases hr : ablock d.flushResps with
  | none => rw [hr] at h; simp at h
  | some o =>
      rw [hr] at h
      dsimp only at h
      rcases ablock_eq_some hr with ⟨v, hov, hrs⟩ | ⟨e, hoe, hrs⟩
      · cases v
        rw [hov] at h
        simp at h
        obtain ⟨hres, hd⟩ := h
        subst hres
        subst hd
        exact ⟨rfl, rfl, rfl, .inl ⟨o.yields, rfl, rfl, hrs, rfl⟩⟩
      · rw [hoe] at h
        simp at h
        obtain ⟨hres, hd⟩ := h
        subst hres
        subst hd
        exact ⟨rfl, rfl, rfl, .inr ⟨e, o.yields, rfl, rfl, hrs, rfl⟩⟩

theorem ioWrite_ok {re we : Type} :
    ∀ (buf : List Nat) (d : Device re we) (u : Unit) (d' : Device re we),
      ioWrite buf d = some (.ok u, d') →
      d'.readResps = d.readResps ∧ d'.flushResps = d.flushResps ∧
        d'.flushes = d.flushes ∧ d'.written = d.written ++ buf ∧
        ∃ p, d.writeResps = p ++ d'.writeResps ∧ noErr p = true ∧
          (okValues p).length = buf.length ∧ d'.yields = d.yields + countWb p := by
  intro buf
  induction buf with
  | nil =>
      intro d u d' h
      simp [ioWrite] at h
      subst h
      exact ⟨rfl, rfl, rfl, by simp, [], by simp [noErr, okValues, countWb]⟩
  | cons b rest ih =>
      intro d u d' h
      unfold ioWrite at h
      cases hw : ioWriteByte b d with
      | none => rw [hw] at h; simp at h
      | some pr =>
          obtain ⟨rw', d1⟩ := pr
          rw [hw] at h
          rcases ioWriteByte_eq_some hw with
            ⟨hrr, hfr, hfl, ⟨k, hres, hwr, hwres, hyld⟩ | ⟨e, k, hres, _, _, _⟩⟩
          · subst hres
            simp at h
            obtain ⟨hrr2, hfr2, hfl2, hwr2, p', hp', hne', hok', hyld2⟩ := ih d1 u d' h
            refine ⟨hrr2.trans hrr, hfr2.trans hfr, hfl2.trans hfl, ?_, ?_⟩
            · rw [hwr2, hwr]; simp
            · refine ⟨List.replicate k NbResult.wouldBlock ++
                NbResult.ok () :: p', ?_, ?_, ?_, ?_⟩
              · rw [hwres, hp']; simp
              · simp [noErr_append, noErr_replicate_wb, noErr, hne']
              · simp [okValues_append, okValues_replicate_wb, okValues, hok']
              · rw [hyld2, hyld]
                simp [countWb_append, countWb_replicate_wb, countWb]
                omega
          · subst hres
            simp at h

theorem ioWrite_err {re we : Type} :
    ∀ (buf : List Nat) (d : Device re we) (e : we) (d' : Device re we),
      ioWrite buf d = some (.error e, d') →
      d'.readResps = d.readResps ∧ d'.flushResps = d.flushResps ∧
        d'.flushes = d.flushes ∧
        ∃ i p, i < buf.length ∧ d'.written = d.written ++ buf.take i ∧
          d.writeResps = p ++ NbResult.err e :: d'.writeResps ∧
          noErr p = true ∧ (okValues p).length = i := by
  intro buf
  induction buf with
  | nil =>
      intro d e d' h
      simp [ioWrite] at h
  | cons b rest ih =>
      intro d e d' h
      unfold ioWrite at h
      cases hw : ioWriteByte b d with
      | none => rw [hw] at h; simp at h
      | some pr =>
          obtain ⟨rw', d1⟩ := pr
          rw [hw] at h
          rcases ioWriteByte_eq_some hw with
            ⟨hrr, hfr, hfl, ⟨k, hres, hwr, hwres, hyld⟩ | ⟨e', k, hres, hwr, hwres, hyld⟩⟩
          · subst hres
            simp at h
            obtain ⟨hrr2, hfr2, hfl2, i, p', hi, hwr2, hwres2, hnerr2, hok2⟩ :=
              ih d1 e d' h
            refine ⟨hrr2.trans hrr, hfr2.trans hfr, hfl2.trans hfl,
              i + 1, (List.replicate k NbResult.wouldBlock ++ [NbResult.ok ()]) ++ p',
              by simp; omega, ?_, ?_, ?_, ?_⟩
            · rw [hwr2, hwr]
              simp
            · rw [hwres, hwres2]
              simp
            · simp [noErr_append, noErr_replicate_wb, noErr, hnerr2]
            · simp [okValues_append, okValues_replicate_wb, okValues, hok2]
          · subst hres
            simp at h
            obtain ⟨he, hd⟩ := h
            subst he
            subst hd
            refine ⟨hrr, hfr, hfl, 0, List.replicate k NbResult.wouldBlock,
              by simp, by simp [hwr], by simp [hwres], ?_, ?_⟩
            · simp [noErr_replicate_wb]
            · simp [okValues_replicate_wb]

theorem writeItem_eq_some {re we : Type} {item : OutputItem}
    {d : Device re we} {r : Except we Unit} {d' : Device re we}
    (h : writeItem item d = some (r, d')) :
    d'.readResps = d.readResps ∧ d'.flushResps = d.flushResps ∧
      d'.flushes = d.flushes ∧
      (∀ u, r = .ok u → d'.written = d.written ++ itemBytes item) := by
  unfold writeItem at h
  cases hb : item.bytes with
  | none =>
      rw [hb] at h
      simp at h
      obtain ⟨hr, hd⟩ := h
      subst hr
      subst hd
      exact ⟨rfl, rfl, rfl, fun u _ => by simp [itemBytes, hb]⟩
  | some bs =>
      rw [hb] at h
      cases r with
      | ok u =>
          obtain ⟨hrr, hfr, hfl, hwr, _⟩ := ioWrite_ok bs d u d' h
          exact ⟨hrr, hfr, hfl, fun _ _ => by simp [itemBytes, hb, hwr]⟩
      | error e =>
          obtain ⟨hrr, hfr, hfl, _⟩ := ioWrite_err bs d e d' h
          exact ⟨hrr, hfr, hfl, fun u hu => by cases hu⟩

/-- One `handle_output` iteration, rephrased through `writeItem`. -/
theorem handleOutput_cons {re we : Type} (item : OutputItem)
    (rest : List OutputItem) (d : Device re we) :
    handleOutput (item :: rest) d =
      match writeItem item d with
      | none => none
      | some (.error e, d1) => some (.error (.writeError e), d1)
      | some (.ok _, d1) =>
          match ioFlush d1 with
          | none => none
          | some (.error e, d2) => some (.error (.writeError e), d2)
          | some (.ok _, d2) =>
              match item.tag with
              | .endOfString => some (.ok (some ()), d2)
              | .abort => some (.error .aborted, d2)
              | _ => handleOutput rest d2 := by
  cases hb : item.bytes with
  | none =>
      cases hf : ioFlush d with
      | none => simp [handleOutput, writeItem, hb, hf]
      | some pr =>
          obtain ⟨rf, d2⟩ := pr
          cases rf with
          | ok u =>
              cases htag : item.tag <;>
                simp [handleOutput, writeItem, hb, hf, htag]
          | error e => simp [handleOutput, writeItem, hb, hf]
  | some bs =>
      cases hw : ioWrite bs d with
      | none => simp [handleOutput, writeItem, hb, hw]
      | some pr =>
          obtain ⟨rw', d1⟩ := pr
          cases rw' with
          | error e => simp [handleOutput, writeItem, hb, hw]
          | ok u =>
              cases hf : ioFlush d1 with
              | none => simp [handleOutput, writeItem, hb, hw, hf]
              | some pr2 =>
                  obtain ⟨rf, d2⟩ := pr2
                  cases rf with
                  | ok u2 =>
                      cases htag : item.tag <;>
                        simp [handleOutput, writeItem, hb, hw, hf, htag]
                  | error e => simp [handleOutput, writeItem, hb, hw, hf]

theorem handleOutput_spec {re we : Type} :
    ∀ (items : List OutputItem) (d : Device re we)
      (r : Except (Error re we) (Option Unit)) (d' : Device re we),
      handleOutput items d = some (r, d') →
      d'.readResps = d.readResps ∧
      (r = .ok none → firstSignal items = none ∧
          d'.written = d.written ++ bytesUpToSignal items ∧
          d'.flushes = d.flushes + itemsUpToSignal items) ∧
      (∀ u, r = .ok (some u) → firstSignal items = some true ∧
          d'.written = d.written ++ bytesUpToSignal items ∧
          d'.flushes = d.flushes + itemsUpToSignal items) ∧
      (r = .error .aborted → firstSignal items = some false ∧
          d'.written = d.written ++ bytesUpToSignal items ∧
          d'.flushes = d.flushes + itemsUpToSignal items) := by
  intro items
  induction items with
  | nil =>
      intro d r d' h
      simp [handleOutput] at h
      obtain ⟨hr, hd⟩ := h
      subst hr
      subst hd
      refine ⟨rfl, ?_, ?_, ?_⟩
      · intro _
        exact ⟨rfl, by simp [bytesUpToSignal], by simp [itemsUpToSignal]⟩
      · intro u hu
        simp at hu
      · intro hu
        simp at hu
  | cons item rest ih =>
      intro d r d' h
      rw [handleOutput_cons] at h
      cases hw : writeItem item d with
      | none => rw [hw] at h; simp at h
      | some pr =>
          obtain ⟨rwi, d1⟩ := pr
          rw [hw] at h
          obtain ⟨hrr1, hfr1, hfl1, hwr1⟩ := writeItem_eq_some hw
          cases rwi with
          | error e =>
              simp at h
              obtain ⟨hr, hd⟩ := h
              subst hr
              subst hd
              refine ⟨hrr1, ?_, ?_, ?_⟩
              · intro hu; simp at hu
              · intro u hu; simp at hu
              · intro hu; simp at hu
          | ok u =>
              have hwr1' := hwr1 u rfl
              dsimp only at h
              cases hf : ioFlush d1 with
              | none => rw [hf] at h; simp at h
              | some pr2 =>
                  obtain ⟨rf, d2⟩ := pr2
                  rw [hf] at h
                  obtain ⟨hrr2, hwrr2, hwr2, hflc⟩ := ioFlush_eq_some hf
                  cases rf with
                  | error e =>
                      simp at h
                      obtain ⟨hr, hd⟩ := h
                      subst hr
                      subst hd
                      refine ⟨hrr2.trans hrr1, ?_, ?_, ?_⟩
                      · intro hu; simp at hu
                      · intro u' hu; simp at hu
                      · intro hu; simp at hu
                  | ok u2 =>
                      dsimp only at h
                      rcases hflc with ⟨k, _, hplus, _, _⟩ | ⟨e, k, habs, _, _, _⟩
                      · cases htag : item.tag
                        case endOfString =>
                            rw [htag] at h
                            simp at h
                            obtain ⟨hr, hd⟩ := h
                            subst hr
                            subst hd
                            refine ⟨hrr2.trans hrr1, ?_, ?_, ?_⟩
                            · intro hu; simp at hu
                            · intro u' _
                              refine ⟨by simp [firstSignal, htag], ?_, ?_⟩
                              · rw [hwr2, hwr1']
                                simp [bytesUpToSignal, htag]
                              · rw [hplus, hfl1]
                                simp [itemsUpToSignal, htag]
                            · intro hu; simp at hu
                        case abort =>
                            rw [htag] at h
                            simp at h
                            obtain ⟨hr, hd⟩ := h
                            subst hr
                            subst hd
                            refine ⟨hrr2.trans hrr1, ?_, ?_, ?_⟩
                            · intro hu; simp at hu
                            · intro u' hu; simp at hu
                            · intro _
                              refine ⟨by simp [firstSignal, htag], ?_, ?_⟩
                              · rw [hwr2, hwr1']
                                simp [bytesUpToSignal, htag]
                              · rw [hplus, hfl1]
                                simp [itemsUpToSignal, htag]
                        all_goals
                          · rw [htag] at h
                            dsimp only at h
                            obtain ⟨hA, hB, hC, hD⟩ := ih d2 r d' h
                            refine ⟨hA.trans (hrr2.trans hrr1), ?_, ?_, ?_⟩
                            · intro hu
                              obtain ⟨hsig, hwr', hfl'⟩ := hB hu
                              refine ⟨by simp [firstSignal, htag, hsig], ?_, ?_⟩
                              · rw [hwr', hwr2, hwr1']
                                simp [bytesUpToSignal, htag]
                              · rw [hfl', hplus, hfl1]
                                simp [itemsUpToSignal, htag]
                                omega
                            · intro u' hu
                              obtain ⟨hsig, hwr', hfl'⟩ := hC u' hu
                              refine ⟨by simp [firstSignal, htag, hsig], ?_, ?_⟩
                              · rw [hwr', hwr2, hwr1']
                                simp [bytesUpToSignal, htag]
                              · rw [hfl', hplus, hfl1]
                                simp [itemsUpToSignal, htag]
                                omega
                            · intro hu
                              obtain ⟨hsig, hwr', hfl'⟩ := hD hu
                              refine ⟨by simp [firstSignal, htag, hsig], ?_, ?_⟩
                              · rw [hwr', hwr2, hwr1']
                                simp [bytesUpToSignal, htag]
                              · rw [hfl', hplus, hfl1]
                                simp [itemsUpToSignal, htag]
                                omega
                      · simp at habs

theorem handleOutput_stops_at_signal {re we : Type}
    (sig : OutputItem) (hsig : sig.tag = .endOfString ∨ sig.tag = .abort) :
    ∀ (pre post : List OutputItem) (d : Device re we),
      handleOutput (pre ++ sig :: post) d = handleOutput (pre ++ [sig]) d := by
  intro pre
  induction pre with
  | nil =>
      intro post d
      simp only [List.nil_append]
      rw [handleOutput_cons, handleOutput_cons]
      rcases hsig with h | h <;> simp [h]
  | cons q pre' ih =>
      intro post d
      simp only [List.cons_append]
      rw [handleOutput_cons, handleOutput_cons]
      simp only [ih]

theorem readlineLoop_ok {σ re we : Type} (lf : LineM σ) :
    ∀ (fuel : Nat) (st : σ) (d : Device re we) (out : List Nat)
      (d' : Device re we),
      readlineLoop lf fuel st d = some (.ok out, d') →
      ∃ bs p, bs ≠ [] ∧
        d.readResps = p ++ d'.readResps ∧
        okValues p = bs ∧ noErr p = true ∧
        endsWithEOS lf st bs = true ∧
        out = lf.content (foldAdvance lf st bs) ∧
        d'.written = d.written ++ runWritten lf st bs := by
  intro fuel
  induction fuel with
  | zero =>
      intro st d out d' h
      simp [readlineLoop] at h
  | succ fuel ih =>
      intro st d out d' h
      unfold readlineLoop at h
      cases hr : ioRead d with
      | none => rw [hr] at h; simp at h
      | some pr =>
          obtain ⟨rr, d1⟩ := pr
          rw [hr] at h
          obtain ⟨hwres, hfres, hwr, hfl, hc⟩ := ioRead_eq_some hr
          cases rr with
          | error e => simp at h
          | ok b =>
              dsimp only at h
              rcases hc with ⟨b', k, hb', hrs, hyld⟩ | ⟨e, k, habs, _, _⟩
              · injection hb' with hbb
                subst hbb
                cases ho : handleOutput (lf.advance st b).2 d1 with
                | none => rw [ho] at h; simp at h
                | some pr2 =>
                    obtain ⟨ro, d2⟩ := pr2
                    rw [ho] at h
                    obtain ⟨hAr, hB, hC, _⟩ := handleOutput_spec _ d1 ro d2 ho
                    cases ro with
                    | error er => simp at h
                    | ok oo =>
                        cases oo with
                        | some u =>
                            simp at h
                            obtain ⟨hout, hd⟩ := h
                            subst hd
                            obtain ⟨hsig, hwr2, _⟩ := hC u rfl
                            refine ⟨[b],
                              List.replicate k NbResult.wouldBlock ++ [NbResult.ok b],
                              by simp, ?_, ?_, ?_, ?_, ?_, ?_⟩
                            · rw [hrs, hAr]; simp
                            · simp [okValues_append, okValues_replicate_wb, okValues]
                            · simp [noErr_append, noErr_replicate_wb, noErr]
                            · simp [endsWithEOS, hsig]
                            · rw [← hout]; simp [foldAdvance]
                            · rw [hwr2, hwr]; simp [runWritten]
                        | none =>
                            dsimp only at h
                            obtain ⟨bs', p', hne', hrs', hok', hnerr', heos', hout', hwrr'⟩ :=
                              ih (lf.advance st b).1 d2 out d' h
                            obtain ⟨hsig, hwr2, _⟩ := hB rfl
                            refine ⟨b :: bs',
                              (List.replicate k NbResult.wouldBlock ++ [NbResult.ok b]) ++ p',
                              by simp, ?_, ?_, ?_, ?_, ?_, ?_⟩
                            · rw [hrs]
                              rw [hAr] at hrs'
                              rw [hrs']
                              simp
                            · simp [okValues_append, okValues_replicate_wb, okValues, hok']
                            · simp [noErr_append, noErr_replicate_wb, noErr, hnerr']
                            · cases bs' with
                              | nil => exact absurd rfl hne'
                              | cons c rest' =>
                                  simp [endsWithEOS, hsig]
                                  exact heos'
                            · simpa [foldAdvance] using hout'
                            · rw [hwrr', hwr2, hwr]
                              simp [runWritten]
              · exfalso
                simp at habs

theorem firstSignal_append_none :
    ∀ (pre : List OutputItem), firstSignal pre = none →
      ∀ (post : List OutputItem), firstSignal (pre ++ post) = firstSignal post := by
  intro pre
  induction pre with
  | nil => intro _ post; simp
  | cons it rest ih =>
      intro h post
      unfold firstSignal at h
      cases htag : it.tag <;> rw [htag] at h <;>
        simp_all [List.cons_append, firstSignal, htag]

theorem bytesUpToSignal_append_sig :
    ∀ (pre : List OutputItem), firstSignal pre = none →
      ∀ (sig : OutputItem), sig.tag = .endOfString ∨ sig.tag = .abort →
        ∀ (post : List OutputItem),
          bytesUpToSignal (pre ++ sig :: post) =
            bytesUpToSignal pre ++ itemBytes sig := by
  intro pre
  induction pre with
  | nil =>
      intro _ sig hsig post
      rcases hsig with h | h <;> simp [bytesUpToSignal, h]
  | cons it rest ih =>
      intro h sig hsig post
      unfold firstSignal at h
      cases htag : it.tag <;> rw [htag] at h <;>
        simp_all [List.cons_append, bytesUpToSignal, htag]

theorem itemsUpToSignal_append_sig :
    ∀ (pre : List OutputItem), firstSignal pre = none →
      ∀ (sig : OutputItem), sig.tag = .endOfString ∨ sig.tag = .abort →
        ∀ (post : List OutputItem),
          itemsUpToSignal (pre ++ sig :: post) = pre.length + 1 := by
  intro pre
  induction pre with
  | nil =>
      intro _ sig hsig post
      rcases hsig with h | h <;> simp [itemsUpToSignal, h]
  | cons it rest ih =>
      intro h sig hsig post
      unfold firstSignal at h
      cases htag : it.tag <;> rw [htag] at h <;>
        simp_all [List.cons_append, itemsUpToSignal, htag]

theorem itemsUpToSignal_of_noSignal :
    ∀ (items : List OutputItem), firstSignal items = none →
      itemsUpToSignal items = items.length := by
  intro items
  induction items with
  | nil => intro _; simp [itemsUpToSignal]
  | cons it rest ih =>
      intro h
      unfold firstSignal at h
      cases htag : it.tag <;> rw [htag] at h <;>
        simp_all [itemsUpToSignal, htag]

theorem newLoop_invalid {ι re we : Type} (im : InitM ι) :
    ∀ (bs : List Nat) (fuel : Nat) (i : ι) (d : Device re we)
      (tail : List (NbResult Nat re)),
      d.readResps = bs.map NbResult.ok ++ tail →
      invalidFirst im i bs = true →
      bs.length ≤ fuel →
      ∃ d', newLoop im fuel i d = some (.error .parserError, d') := by
  intro bs
  induction bs with
  | nil =>
      intro fuel i d tail _ hinv _
      simp [invalidFirst] at hinv
  | cons b rest ih =>
      intro fuel i d tail hread hinv hlen
      cases fuel with
      | zero => simp at hlen
      | succ fuel =>
          have hio : ioRead d = some (.ok b,
              { d with readResps := rest.map NbResult.ok ++ tail,
                       yields := d.yields + 0 }) := by
            unfold ioRead
            rw [hread]
            simp [ablock]
          unfold invalidFirst at hinv
          cases hadv : im.advance i b with
          | mk i' res =>
              rw [hadv] at hinv
              cases res with
              | cont =>
                  dsimp only at hinv
                  obtain ⟨d', hd'⟩ := ih fuel i'
                    { d with readResps := rest.map NbResult.ok ++ tail,
                             yields := d.yields + 0 }
                    tail rfl hinv (by simp at hlen; omega)
                  refine ⟨d', ?_⟩
                  unfold newLoop
                  rw [hio]
                  dsimp only
                  rw [hadv]
                  exact hd'
              | item t => simp at hinv
              | invalidInput =>
                  have harg : newLoop im (fuel + 1) i d =
                      some (.error .parserError,
                        { d with readResps := rest.map NbResult.ok ++ tail, yields := d.yields + 0 }) := by
                    unfold newLoop
                    rw [hio]
                    dsimp only
                    rw [hadv]
                  exact ⟨_, harg⟩

theorem newLoop_ok {ι re we : Type} (im : InitM ι) :
    ∀ (fuel : Nat) (i : ι) (d : Device re we) (t : Terminal)
      (d' : Device re we),
      newLoop im fuel i d = some (.ok t, d') →
      d'.writeResps = d.writeResps ∧ d'.flushResps = d.flushResps ∧
        d'.written = d.written ∧ d'.flushes = d.flushes ∧
        ∃ p bs, d.readResps = p ++ d'.readResps ∧ okValues p = bs ∧
          noErr p = true ∧ itemFirst im i bs t = true := by
  intro fuel
  induction fuel with
  | zero =>
      intro i d t d' h
      simp [newLoop] at h
  | succ fuel ih =>
      intro i d t d' h
      unfold newLoop at h
      cases hr : ioRead d with
      | none => rw [hr] at h; simp at h
      | some pr =>
          obtain ⟨rr, d1⟩ := pr
          rw [hr] at h
          obtain ⟨hwres, hfres, hwr, hfl, hc⟩ := ioRead_eq_some hr
          cases rr with
          | error e => simp at h
          | ok b =>
              dsimp only at h
              rcases hc with ⟨b', k, hb', hrs, hyld⟩ | ⟨e, k, habs, _, _⟩
              · injection hb' with hbb
                subst hbb
                cases hadv : im.advance i b with
                | mk i' res =>
                    rw [hadv] at h
                    cases res with
                    | cont =>
                        dsimp only at h
                        obtain ⟨hw2, hf2, hwr2, hfl2, p', bs', hrs', hok', hne', hit'⟩ :=
                          ih i' d1 t d' h
                        refine ⟨hw2.trans hwres, hf2.trans hfres,
                          hwr2.trans hwr, hfl2.trans hfl,
                          (List.replicate k NbResult.wouldBlock ++ [NbResult.ok b]) ++ p',
                          b :: bs', ?_, ?_, ?_, ?_⟩
                        · rw [hrs, hrs']; simp
                        · simp [okValues_append, okValues_replicate_wb, okValues, hok']
                        · simp [noErr_append, noErr_replicate_wb, noErr, hne']
                        · simp [itemFirst, hadv]
                          exact hit'
                    | item t' =>
                        simp at h
                        obtain ⟨ht, hd⟩ := h
                        subst ht
                        subst hd
                        refine ⟨hwres, hfres, hwr, hfl,
                          List.replicate k NbResult.wouldBlock ++ [NbResult.ok b],
                          [b], ?_, ?_, ?_, ?_⟩
                        · rw [hrs]; simp
                        · simp [okValues_append, okValues_replicate_wb, okValues]
                        · simp [noErr_append, noErr_replicate_wb, noErr]
                        · simp [itemFirst, hadv]
                    | invalidInput => simp at h
              · exfalso
                simp at habs

/-! The claim theorems. -/

/-- C3: for each primitive transport operation of the embedded IO wrapper
(single-byte read, single-byte write, flush), every would-block response
costs exactly one yield before the retry, a success ends the retry loop
with the delivered value, and a hard error ends the loop immediately with
that same error, the remaining responses untouched (no retry after a hard
error). -/
theorem primitive_retry_loop {re we : Type} (k : Nat) :
    (∀ (d : Device re we) (v : Nat) (rest : List (NbResult Nat re)),
      d.readResps = List.replicate k NbResult.wouldBlock ++ NbResult.ok v :: rest →
      ioRead d = some (.ok v, { d with readResps := rest, yields := d.yields + k })) ∧
    (∀ (d : Device re we) (e : re) (rest : List (NbResult Nat re)),
      d.readResps = List.replicate k NbResult.wouldBlock ++ NbResult.err e :: rest →
      ioRead d = some (.error e, { d with readResps := rest, yields := d.yields + k })) ∧
    (∀ (d : Device re we) (b : Nat) (rest : List (NbResult Unit we)),
      d.writeResps = List.replicate k NbResult.wouldBlock ++ NbResult.ok () :: rest →
      ioWriteByte b d = some (.ok (),
        { d with writeResps := rest, yields := d.yields + k,
                 written := d.written ++ [b] })) ∧
    (∀ (d : Device re we) (b : Nat) (e : we) (rest : List (NbResult Unit we)),
      d.writeResps = List.replicate k NbResult.wouldBlock ++ NbResult.err e :: rest →
      ioWriteByte b d = some (.error e,
        { d with writeResps := rest, yields := d.yields + k })) ∧
    (∀ (d : Device re we) (rest : List (NbResult Unit we)),
      d.flushResps = List.replicate k NbResult.wouldBlock ++ NbResult.ok () :: rest →
      ioFlush d = some (.ok (),
        { d with flushResps := rest, yields := d.yields + k,
                 flushes := d.flushes + 1 })) ∧
    (∀ (d : Device re we) (e : we) (rest : List (NbResult Unit we)),
      d.flushResps = List.replicate k NbResult.wouldBlock ++ NbResult.err e :: rest →
      ioFlush d = some (.error e,
        { d with flushResps := rest, yields := d.yields + k })) := by
  refine ⟨?_, ?_, ?_, ?_, ?_, ?_⟩
  · intro d v rest hd
    unfold ioRead
    rw [hd, ablock_replicate_ok]
  · intro d e rest hd
    unfold ioRead
    rw [hd, ablock_replicate_err]
  · intro d b rest hd
    unfold ioWriteByte
    rw [hd, ablock_replicate_ok]
  · intro d b e rest hd
    unfold ioWriteByte
    rw [hd, ablock_replicate_err]
  · intro d rest hd
    unfold ioFlush
    rw [hd, ablock_replicate_ok]
  · intro d e rest hd
    unfold ioFlush
    rw [hd, ablock_replicate_err]

/-- C4: `IO::write` delivers the bytes of `buf` to the transport one byte
at a time, in the order of `buf`, each single-byte write individually
subject to the would-block retry loop, and returns `Ok` only after every
byte has been written. -/
theorem ioWrite_writes_all_in_order {re we : Type} (buf : List Nat)
    (d : Device re we) (u : Unit) (d' : Device re we)
    (h : ioWrite buf d = some (.ok u, d')) :
    d'.written = d.written ++ buf ∧
    d'.readResps = d.readResps ∧ d'.flushResps = d.flushResps ∧
    d'.flushes = d.flushes ∧
    ∃ p, d.writeResps = p ++ d'.writeResps ∧ noErr p = true ∧
      (okValues p).length = buf.length ∧ d'.yields = d.yields + countWb p := by
  obtain ⟨hrr, hfr, hfl, hwr, hp⟩ := ioWrite_ok buf d u d' h
  exact ⟨hwr, hrr, hfr, hfl, hp⟩

/-- C10: multi-byte writes are not atomic on failure: when the single-byte
write of the byte at position `i` of `buf` fails with a hard error,
`IO::write` returns that error with exactly the bytes at positions `0..i`
delivered to the transport (`i` successful polls before the failing one)
and no later byte attempted: the response stream is consumed exactly up to
the failing response. -/
theorem ioWrite_partial_on_error {re we : Type} (buf : List Nat)
    (d : Device re we) (e : we) (d' : Device re we)
    (h : ioWrite buf d = some (.error e, d')) :
    d'.readResps = d.readResps ∧ d'.flushResps = d.flushResps ∧
    d'.flushes = d.flushes ∧
    ∃ i p, i < buf.length ∧ d'.written = d.written ++ buf.take i ∧
      d.writeResps = p ++ NbResult.err e :: d'.writeResps ∧
      noErr p = true ∧ (okValues p).length = i :=
  ioWrite_err buf d e d' h

/-- C9: `get_history` takes the editor by shared reference: the editor
(line buffer, terminal and history contents) is identical before and
after the call, and consuming the returned iterator of entry views yields
exactly the history's entries. -/
theorem getHistory_pure (ed : EditorState) :
    (getHistory ed).2 = ed ∧
    ((getHistory ed).1.map fun cs => cs.first ++ cs.second) = ed.history := by
  refine ⟨rfl, ?_⟩
  unfold getHistory getHistoryEntries
  rw [List.map_map]
  exact List.map_id'' (fun a => by simp) ed.history

/-- C2: if, while `Editor::new` feeds reply bytes to the negotiator, some
byte draws `InvalidInput` before any `Item(Terminal)` appears, the
construction fails with `ParserError` and no editor is produced. -/
theorem editorNew_invalid_reply_parser_error {ι re we : Type} (im : InitM ι)
    (fuel : Nat) (i : ι) (d d1 d2 : Device re we) (bs : List Nat)
    (tail : List (NbResult Nat re))
    (hw : ioWrite im.initBytes d = some (.ok (), d1))
    (hf : ioFlush d1 = some (.ok (), d2))
    (hread : d2.readResps = bs.map NbResult.ok ++ tail)
    (hinv : invalidFirst im i bs = true)
    (hfuel : bs.length ≤ fuel) :
    ∃ d3, editorNew im fuel i d = some (.error .parserError, d3) := by
  obtain ⟨d3, hd3⟩ := newLoop_invalid im bs fuel i d2 tail hread hinv hfuel
  refine ⟨d3, ?_⟩
  unfold editorNew
  rw [hw]
  dsimp only
  rw [hf]
  dsimp only
  rw [hd3]

/-- C6: a successful `Editor::new` first writes the fixed probe bytes and
flushes once, then consumes reply bytes through the negotiator, answering
`Continue` until the last consumed byte yields the terminal; the editor
holds exactly that terminal, an empty line buffer and the empty default
history. -/
theorem editorNew_ok {ι re we : Type} (im : InitM ι) (fuel : Nat) (i : ι)
    (d : Device re we) (ed : EditorState) (d' : Device re we)
    (h : editorNew im fuel i d = some (.ok ed, d')) :
    d'.written = d.written ++ im.initBytes ∧
    d'.flushes = d.flushes + 1 ∧
    ed.buffer = [] ∧ ed.history = [] ∧
    ∃ p bs, d.readResps = p ++ d'.readResps ∧ okValues p = bs ∧
      noErr p = true ∧ itemFirst im i bs ed.terminal = true := by
  unfold editorNew at h
  cases hw : ioWrite im.initBytes d with
  | none => rw [hw] at h; simp at h
  | some pr =>
      obtain ⟨rw1, d1⟩ := pr
      rw [hw] at h
      cases rw1 with
      | error e => simp at h
      | ok u =>
          dsimp only at h
          obtain ⟨hrr1, hfr1, hfl1, hwr1, _⟩ := ioWrite_ok im.initBytes d u d1 hw
          cases hf : ioFlush d1 with
          | none => rw [hf] at h; simp at h
          | some pr2 =>
              obtain ⟨rf, d2⟩ := pr2
              rw [hf] at h
              cases rf with
              | error e => simp at h
              | ok u2 =>
                  dsimp only at h
                  obtain ⟨hrr2, hwres2, hwr2, hflc⟩ := ioFlush_eq_some hf
                  rcases hflc with ⟨k, _, hplus, _, _⟩ | ⟨e, k, habs, _, _, _⟩
                  · cases hn : newLoop im fuel i d2 with
                    | none => rw [hn] at h; simp at h
                    | some pr3 =>
                        obtain ⟨rn, d3⟩ := pr3
                        rw [hn] at h
                        cases rn with
                        | error er => simp at h
                        | ok t =>
                            simp at h
                            obtain ⟨hed, hd⟩ := h
                            subst hd
                            obtain ⟨hw3, hf3, hwr3, hfl3, p, bs, hrs3, hok3, hne3, hit3⟩ :=
                              newLoop_ok im fuel i d2 t _ hn
                            refine ⟨?_, ?_, ?_, ?_, p, bs, ?_, hok3, hne3, ?_⟩
                            · rw [hwr3, hwr2, hwr1]
                            · rw [hfl3, hplus, hfl1]
                            · rw [← hed]
                            · rw [← hed]
                            · rw [← hrr1, ← hrr2]
                              exact hrs3
                            · rw [← hed]
                              exact hit3
                  · exfalso
                    simp at habs

/-- C7: `handle_output` issues a flush after every item it processes,
including items that carry no bytes, and a failure of that flush is
reported as a write error even when all of the item's byte writes
succeeded. -/
theorem handleOutput_flush_per_item {re we : Type} :
    (∀ (items : List OutputItem) (d d' : Device re we),
      handleOutput items d = some (.ok none, d') →
      d'.flushes = d.flushes + items.length) ∧
    (∀ (item : OutputItem) (rest : List OutputItem) (d d1 d2 : Device re we)
      (e : we),
      writeItem item d = some (.ok (), d1) →
      ioFlush d1 = some (.error e, d2) →
      handleOutput (item :: rest) d = some (.error (.writeError e), d2)) := by
  constructor
  · intro items d d' h
    obtain ⟨_, hB, _, _⟩ := handleOutput_spec items d _ d' h
    obtain ⟨hsig, _, hfl⟩ := hB rfl
    rw [hfl, itemsUpToSignal_of_noSignal items hsig]
  · intro item rest d d1 d2 e hw hf
    rw [handleOutput_cons, hw]
    dsimp only
    rw [hf]

/-- C5: when `handle_output` encounters an `Abort` item, the item's bytes
(if any) are written and flushed, the call fails with the `Aborted` error
rather than returning a line, and no item after the abort is processed:
the run is identical to the run of the sequence truncated at the abort. -/
theorem handleOutput_abort_aborts {re we : Type} (pre post : List OutputItem)
    (sig : OutputItem) (hsig : sig.tag = .abort) (d : Device re we) :
    handleOutput (pre ++ sig :: post) d = handleOutput (pre ++ [sig]) d ∧
    (firstSignal pre = none →
      (∀ (r : Option Unit) (d' : Device re we),
        handleOutput (pre ++ sig :: post) d ≠ some (.ok r, d')) ∧
      (∀ (d' : Device re we),
        handleOutput (pre ++ sig :: post) d = some (.error .aborted, d') →
        d'.written = d.written ++ bytesUpToSignal pre ++ itemBytes sig ∧
        d'.flushes = d.flushes + pre.length + 1)) := by
  constructor
  · exact handleOutput_stops_at_signal sig (.inr hsig) pre post d
  · intro hpre
    have hfs : firstSignal (pre ++ sig :: post) = some false := by
      rw [firstSignal_append_none pre hpre]
      simp [firstSignal, hsig]
    constructor
    · intro r d' hcontra
      obtain ⟨_, hB, hC, _⟩ := handleOutput_spec _ d _ d' hcontra
      cases r with
      | none =>
          obtain ⟨hsig', _, _⟩ := hB rfl
          rw [hfs] at hsig'
          cases hsig'
      | some u =>
          obtain ⟨hsig', _, _⟩ := hC u rfl
          rw [hfs] at hsig'
          cases hsig'
    · intro d' habort
      obtain ⟨_, _, _, hD⟩ := handleOutput_spec _ d _ d' habort
      obtain ⟨_, hwr, hfl⟩ := hD rfl
      constructor
      · rw [hwr, bytesUpToSignal_append_sig pre hpre sig (.inr hsig) post]
        simp
      · rw [hfl, itemsUpToSignal_append_sig pre hpre sig (.inr hsig) post]
        omega

/-- C8: once `handle_output` has written and flushed an `EndOfString`
item, the read ends successfully; the items following it in the same
output sequence are neither written nor flushed: the run is identical to
the run of the sequence truncated at the `EndOfString`, and on success
exactly the bytes and flushes up to that item have reached the
transport. -/
theorem handleOutput_end_of_string_stops {re we : Type}
    (pre post : List OutputItem) (sig : OutputItem)
    (hsig : sig.tag = .endOfString) (d : Device re we) :
    handleOutput (pre ++ sig :: post) d = handleOutput (pre ++ [sig]) d ∧
    (firstSignal pre = none →
      ∀ (d' : Device re we),
        handleOutput (pre ++ sig :: post) d = some (.ok (some ()), d') →
        d'.written = d.written ++ bytesUpToSignal pre ++ itemBytes sig ∧
        d'.flushes = d.flushes + pre.length + 1) := by
  constructor
  · exact handleOutput_stops_at_signal sig (.inl hsig) pre post d
  · intro hpre d' hdone
    obtain ⟨_, _, hC, _⟩ := handleOutput_spec _ d _ d' hdone
    obtain ⟨_, hwr, hfl⟩ := hC () rfl
    constructor
    · rw [hwr, bytesUpToSignal_append_sig pre hpre sig (.inl hsig) post]
      simp
    · rw [hfl, itemsUpToSignal_append_sig pre hpre sig (.inl hsig) post]
      omega

/-- C1: a `readline` call that returns a line first processes the
`reset()` output, then consumes input bytes one at a time (each one read
from the transport, fed to `line.advance`, and the resulting output items
written) until the output of the last consumed byte signals
`EndOfString`; the returned line is the buffer contents after those
advances. -/
theorem readline_success_run {σ re we : Type} (lf : LineM σ) (fuel : Nat)
    (st : σ) (d : Device re we) (out : List Nat) (d' : Device re we)
    (h : readline lf fuel st d = some (.ok out, d')) :
    ∃ bs p, bs ≠ [] ∧
      d.readResps = p ++ d'.readResps ∧
      okValues p = bs ∧ noErr p = true ∧
      endsWithEOS lf (lf.reset st).1 bs = true ∧
      out = lf.content (foldAdvance lf (lf.reset st).1 bs) ∧
      d'.written =
        d.written ++ bytesUpToSignal (lf.reset st).2 ++
          runWritten lf (lf.reset st).1 bs := by
  unfold readline at h
  dsimp only at h
  cases hh : handleOutput (lf.reset st).2 d with
  | none => rw [hh] at h; simp at h
  | some pr =>
      obtain ⟨rh, d1⟩ := pr
      rw [hh] at h
      obtain ⟨hAr, hB, hC, _⟩ := handleOutput_spec _ d rh d1 hh
      cases rh with
      | error er => simp at h
      | ok oo =>
          dsimp only at h
          obtain ⟨bs, p, hne, hrs, hok, hnerr, heos, hout, hwr⟩ :=
            readlineLoop_ok lf fuel _ d1 out d' h
          have hwr1 : d1.written = d.written ++ bytesUpToSignal (lf.reset st).2 := by
            cases oo with
            | none => exact (hB rfl).2.1
            | some u => exact (hC u rfl).2.1
          refine ⟨bs, p, hne, ?_, hok, hnerr, heos, hout, ?_⟩
          · rw [← hAr]
            exact hrs
          · rw [hwr, hwr1]

/-! Closed witnesses evaluating each theorem with hypotheses on a
concrete run. -/

/-- Evaluation of the retry-loop theorem: a read that blocks twice then
delivers, and a flush that blocks twice then fails hard. -/
theorem primitive_retry_loop_witness :
    ioRead wbReadDev = some (.ok 7,
      { wbReadDev with readResps := [], yields := wbReadDev.yields + 2 }) ∧
    ioFlush wbFlushDev = some (.error (),
      { wbFlushDev with flushResps := [], yields := wbFlushDev.yields + 2 }) :=
  ⟨(primitive_retry_loop 2).1 wbReadDev 7 [] (by rfl),
   (primitive_retry_loop 2).2.2.2.2.2 wbFlushDev () [] (by rfl)⟩

/-- Evaluation of the multi-byte write theorem on a two-byte buffer with
one would-block in between. -/
theorem ioWrite_writes_all_in_order_witness :
    devC4out.written = devC4.written ++ [5, 6] ∧
    devC4out.readResps = devC4.readResps ∧
    devC4out.flushResps = devC4.flushResps ∧
    devC4out.flushes = devC4.flushes ∧
    ∃ p, devC4.writeResps = p ++ devC4out.writeResps ∧ noErr p = true ∧
      (okValues p).length = ([5, 6] : List Nat).length ∧
      devC4out.yields = devC4.yields + countWb p :=
  ioWrite_writes_all_in_order [5, 6] devC4 () devC4out (by rfl)

/-- Evaluation of the partial-write theorem on a three-byte buffer whose
second write fails. -/
theorem ioWrite_partial_on_error_witness :
    devC10out.readResps = devC10.readResps ∧
    devC10out.flushResps = devC10.flushResps ∧
    devC10out.flushes = devC10.flushes ∧
    ∃ i p, i < ([5, 6, 7] : List Nat).length ∧
      devC10out.written = devC10.written ++ ([5, 6, 7] : List Nat).take i ∧
      devC10.writeResps = p ++ NbResult.err () :: devC10out.writeResps ∧
      noErr p = true ∧ (okValues p).length = i :=
  ioWrite_partial_on_error [5, 6, 7] devC10 () devC10out (by rfl)

/-- Evaluation of the parser-error theorem on a reply whose second byte is
invalid. -/
theorem editorNew_invalid_reply_parser_error_witness :
    ∃ d3, editorNew demoInit 2 0 devC2 = some (.error .parserError, d3) :=
  editorNew_invalid_reply_parser_error demoInit 2 0 devC2 d1C2 d2C2 [49, 88] []
    (by rfl) (by rfl) (by rfl) (by rfl) (by decide)

/-- Evaluation of the construction theorem on a reply that completes the
negotiation on its first byte. -/
theorem editorNew_ok_witness :
    devC6out.written = devC6.written ++ demoInit.initBytes ∧
    devC6out.flushes = devC6.flushes + 1 ∧
    edC6.buffer = [] ∧ edC6.history = [] ∧
    ∃ p bs, devC6.readResps = p ++ devC6out.readResps ∧ okValues p = bs ∧
      noErr p = true ∧ itemFirst demoInit 0 bs edC6.terminal = true :=
  editorNew_ok demoInit 1 0 devC6 edC6 devC6out (by rfl)

/-- Evaluation of the flush-per-item theorem: two items (one byteless) on
a healthy device, and a byteless item whose flush fails. -/
theorem handleOutput_flush_per_item_witness :
    devC7a2.flushes = devC7a.flushes + ([itemNoOp, itemPrintA] : List OutputItem).length ∧
    handleOutput [itemNoOp] devC7 = some (.error (.writeError ()), devC7out) :=
  ⟨handleOutput_flush_per_item.1 [itemNoOp, itemPrintA] devC7a devC7a2 (by rfl),
   handleOutput_flush_per_item.2 itemNoOp [] devC7 devC7 devC7out () (by rfl) (by rfl)⟩

/-- Evaluation of the abort theorem on a run that prints one byte and then
aborts, with a trailing item that is never processed. -/
theorem handleOutput_abort_aborts_witness :
    devC5out.written = devC5.written ++ bytesUpToSignal preC5 ++ itemBytes sigAbort ∧
    devC5out.flushes = devC5.flushes + preC5.length + 1 :=
  ((handleOutput_abort_aborts preC5 postC5 sigAbort (by rfl) devC5).2 (by rfl)).2
    devC5out (by rfl)

/-- Evaluation of the end-of-string theorem on a run that prints one byte
and then ends the line, with a trailing item that is never processed. -/
theorem handleOutput_end_of_string_stops_witness :
    devC8out.written = devC8.written ++ bytesUpToSignal preC8 ++ itemBytes sigEos ∧
    devC8out.flushes = devC8.flushes + preC8.length + 1 :=
  (handleOutput_end_of_string_stops preC8 postC8 sigEos (by rfl) devC8).2 (by rfl)
    devC8out (by rfl)

/-- Evaluation of the readline theorem on the two-byte input "h\r". -/
theorem readline_success_run_witness :
    ∃ bs p, bs ≠ [] ∧
      devC1.readResps = p ++ devC1out.readResps ∧
      okValues p = bs ∧ noErr p = true ∧
      endsWithEOS demoLine (demoLine.reset []).1 bs = true ∧
      [104] = demoLine.content (foldAdvance demoLine (demoLine.reset []).1 bs) ∧
      devC1out.written =
        devC1.written ++ bytesUpToSignal (demoLine.reset []).2 ++
          runWritten demoLine (demoLine.reset []).1 bs :=
  readline_success_run demoLine 2 [] devC1 [104] devC1out (by rfl)

end Noline
